import Mathlib

/-!
Verification of the interval-cache core of `illicitonion/twimetravel`
(`src/backend/src/intervalstore.rs`, `src/backend/src/tweetstore.rs`).

The time coordinate is modelled by `Int` (the Rust code is generic over any
`Ord + Copy` type).  `BTreeSet<Interval<T>>` is modelled by a list kept in
ascending lexicographic `(lo, hi)` order, matching the derived `Ord` on
`Interval(pub T, pub T)` and the ascending iteration order of `BTreeSet`.
Values of an `IntervalStore` are wrapped records compared *by time only*
(`Wrapper` implements `Eq`/`Ord` on `time` alone), so the value collection
is modelled by a list of `(time, payload)` records kept ascending by time
with at most one record per time.
-/

namespace Twimetravel

/-- `Interval<T>(pub T, pub T)`, intervalstore.rs line 6.  `lo` is field `.0`,
`hi` is field `.1`.  No invariant is enforced by the type. -/
structure Interval where
  lo : Int
  hi : Int
deriving DecidableEq, Repr

/-- `Interval::contains`, intervalstore.rs lines 9-11. -/
def Interval.contains (s : Interval) (t : Int) : Bool :=
  decide (s.lo ≤ t) && decide (t ≤ s.hi)

/-- `Interval::contains_interval`, intervalstore.rs lines 13-15. -/
def Interval.contains_interval (s i : Interval) : Bool :=
  s.contains i.lo && s.contains i.hi

/-- `Interval::intersects`, intervalstore.rs lines 17-19.  Note the
asymmetry: only the endpoints of the argument are tested. -/
def Interval.intersects (s i : Interval) : Bool :=
  s.contains i.lo || s.contains i.hi

/-- Strict lexicographic order on `(lo, hi)`: the derived `Ord` of
`Interval(pub T, pub T)`, used by `BTreeSet<Interval<T>>`. -/
def Interval.ilt (a b : Interval) : Bool :=
  decide (a.lo < b.lo) || (decide (a.lo = b.lo) && decide (a.hi < b.hi))

/-- `BTreeSet::insert` on the ordered member list: insert in lexicographic
position; an element already present leaves the set unchanged. -/
def btreeInsert (x : Interval) : List Interval → List Interval
  | [] => [x]
  | y :: ys =>
    if Interval.ilt x y then x :: y :: ys
    else if x = y then y :: ys
    else y :: btreeInsert x ys

/-- `BTreeSet::remove`: drop the element equal to `x`. -/
def btreeRemove (x : Interval) (l : List Interval) : List Interval :=
  l.filter (fun y => y ≠ x)

/-- `IntervalSet<Time>`, intervalstore.rs lines 59-62: the `BTreeSet` of
member intervals, listed in ascending lexicographic order. -/
structure IntervalSet where
  intervals : List Interval
deriving DecidableEq, Repr

/-- `IntervalSet::new`, intervalstore.rs lines 65-69. -/
def IntervalSet.new : IntervalSet := ⟨[]⟩

/-- `IntervalSet::intersecting`, intervalstore.rs lines 91-97: the members
`e` with `e.intersects(interval)`, in ascending order. -/
def IntervalSet.intersecting (s : IntervalSet) (i : Interval) : IntervalSet :=
  ⟨s.intervals.filter (fun e => e.intersects i)⟩

/-- The loop of `IntervalSet::insert`, intervalstore.rs lines 75-83.
`l` is the (precomputed) list of intersecting members being iterated,
`lb`/`ub` the running merge bounds, `cur` the current member list (the
loop removes merged members from it as it goes).  An intersecting member
that contains the inserted interval returns early, keeping `cur` as is. -/
def insertGo (i : Interval) : List Interval → Int → Int → List Interval → List Interval
  | [], lb, ub, cur => btreeInsert ⟨lb, ub⟩ cur
  | e :: rest, lb, ub, cur =>
    if e.contains_interval i then cur
    else insertGo i rest (min lb e.lo) (max ub e.hi) (btreeRemove e cur)

/-- `IntervalSet::insert`, intervalstore.rs lines 71-84. -/
def IntervalSet.insert (s : IntervalSet) (i : Interval) : IntervalSet :=
  ⟨insertGo i (s.intersecting i).intervals i.lo i.hi s.intervals⟩

/-- `IntervalSet::contains`, intervalstore.rs lines 86-88. -/
def IntervalSet.contains (s : IntervalSet) (i : Interval) : Bool :=
  s.intervals.any (fun m => m.contains_interval i)

/-- The loop of `IntervalSet::missing`, intervalstore.rs lines 104-124,
including the final emission after the walk.  `mlb` is
`missing_lower_bound`, `acc` the accumulated `missing` set. -/
def missingGo (i : Interval) : List Interval → Int → List Interval → List Interval
  | [], mlb, acc => if mlb < i.hi then btreeInsert ⟨mlb, i.hi⟩ acc else acc
  | e :: rest, mlb, acc =>
    if e.hi < i.lo then missingGo i rest mlb acc
    else if e.lo ≤ mlb ∧ e.hi ≥ mlb then missingGo i rest e.hi acc
    else if e.lo ≥ mlb then
      missingGo i rest e.hi (btreeInsert ⟨mlb, min i.hi e.lo⟩ acc)
    else if e.lo > i.hi then (if mlb < i.hi then btreeInsert ⟨mlb, i.hi⟩ acc else acc)
    else missingGo i rest mlb acc

/-- `IntervalSet::missing`, intervalstore.rs lines 99-127. -/
def IntervalSet.missing (s : IntervalSet) (i : Interval) : IntervalSet :=
  ⟨missingGo i s.intervals i.lo []⟩

/-- A stored value: `Wrapper<Time, Value>` with `Value` itself modelled as
an opaque integer payload.  Equality and order of wrappers are by `time`
only (intervalstore.rs lines 39-57). -/
structure TVal where
  time : Int
  payload : Int
deriving DecidableEq, Repr

/-- `BTreeSet<Wrapper>::insert`: sorted insert by time; when an equal-time
record is already present the set is left unchanged (the existing record
is kept). -/
def valInsert (x : TVal) : List TVal → List TVal
  | [] => [x]
  | y :: ys =>
    if x.time < y.time then x :: y :: ys
    else if x.time = y.time then y :: ys
    else y :: valInsert x ys

/-- One step of `BTreeSet::append`: like `valInsert` but an incoming record
with an equal time replaces the stored one. -/
def valInsertOv (x : TVal) : List TVal → List TVal
  | [] => [x]
  | y :: ys =>
    if x.time < y.time then x :: y :: ys
    else if x.time = y.time then x :: ys
    else y :: valInsertOv x ys

/-- `values.into_iter().map(wrap).collect::<BTreeSet<_>>()`, intervalstore.rs
lines 180-186: insert each value in order; the first record of a given time
wins. -/
def toWrappedSet (vs : List TVal) : List TVal :=
  vs.foldl (fun acc v => valInsert v acc) []

/-- `self.values.append(&mut wrapped_values)`, intervalstore.rs line 211:
move every wrapped value into the store; on an equal time the incoming
record overwrites the stored one. -/
def valAppend (stored incoming : List TVal) : List TVal :=
  incoming.foldl (fun acc v => valInsertOv v acc) stored

/-- `IntervalStore<Time, Value>`, intervalstore.rs lines 142-145. -/
structure IntervalStoreM where
  intervals : IntervalSet
  values : List TVal
deriving DecidableEq, Repr

/-- `IntervalStore::new`, intervalstore.rs lines 150-155. -/
def IntervalStoreM.new : IntervalStoreM := ⟨IntervalSet.new, []⟩

/-- `IntervalStore::has`, intervalstore.rs lines 157-159. -/
def IntervalStoreM.has (s : IntervalStoreM) (i : Interval) : Bool :=
  s.intervals.contains i

/-- `IntervalStore::missing`, intervalstore.rs lines 161-163. -/
def IntervalStoreM.missing (s : IntervalStoreM) (i : Interval) : IntervalSet :=
  s.intervals.missing i

/-- `IntervalStore::get`, intervalstore.rs lines 165-177: `None` unless the
coverage set contains the interval, otherwise the stored values whose time
lies in it, ascending. -/
def IntervalStoreM.get (s : IntervalStoreM) (i : Interval) : Option (List TVal) :=
  if s.has i then some (s.values.filter (fun w => i.contains w.time)) else none

/-- The overlap interval computed in `IntervalStore::insert`,
intervalstore.rs lines 191-194. -/
def overlapOf (e i : Interval) : Interval :=
  ⟨max e.lo i.lo, min e.hi i.hi⟩

/-- The times of the records of `l` lying in interval `o`, in list order.
`Vec<&Wrapper>` equality compares lengths and then wrappers, and wrapper
equality is time equality, so the Rust comparison of the two filtered
vectors is equality of these time lists. -/
def filteredTimes (l : List TVal) (o : Interval) : List Int :=
  (l.filter (fun w => o.contains w.time)).map (fun w => w.time)

/-- The conflict-check loop of `IntervalStore::insert`, intervalstore.rs
lines 190-207, threading the store state the way the Rust method does:
the early `return Err` leaves the store exactly as it was, and the
mutations (coverage insert, value append) happen only after the loop. -/
def storeInsertGo (i : Interval) (wrapped : List TVal) :
    List Interval → IntervalStoreM → Except String Unit × IntervalStoreM
  | [], s =>
    (Except.ok (), ⟨s.intervals.insert i, valAppend s.values wrapped⟩)
  | e :: rest, s =>
    if filteredTimes wrapped (overlapOf e i) = filteredTimes s.values (overlapOf e i) then
      storeInsertGo i wrapped rest s
    else
      (Except.error "Conflicting values", s)

/-- `IntervalStore::insert`, intervalstore.rs lines 179-214. -/
def IntervalStoreM.insert (s : IntervalStoreM) (i : Interval) (vs : List TVal) :
    Except String Unit × IntervalStoreM :=
  storeInsertGo i (toWrappedSet vs) (s.intervals.intersecting i).intervals s

/-- A point is covered by an interval set when some member contains it. -/
def IntervalSet.covers (s : IntervalSet) (t : Int) : Bool :=
  s.intervals.any (fun m => m.contains t)

/-- Interval sets reachable from `IntervalSet::new` by `insert` calls with
well-formed intervals (the `lo ≤ hi` invariant of §3 of the spec). -/
inductive ReachSet : IntervalSet → Prop
  | new : ReachSet IntervalSet.new
  | step (s : IntervalSet) (i : Interval) :
      ReachSet s → i.lo ≤ i.hi → ReachSet (s.insert i)

/-- Interval stores reachable from `IntervalStore::new` by `insert` calls
with well-formed intervals whose values all carry times inside the inserted
interval.  A failing insert leaves the state unchanged, so only the
post-states of calls are tracked. -/
inductive ReachStore : IntervalStoreM → Prop
  | new : ReachStore IntervalStoreM.new
  | step (s : IntervalStoreM) (i : Interval) (vs : List TVal) :
      ReachStore s → i.lo ≤ i.hi → (∀ v ∈ vs, i.contains v.time) →
      ReachStore (s.insert i vs).2

/-- `TWEPOCH_MILLIS`, tweetstore.rs line 11. -/
def TWEPOCH_MILLIS : Nat := 1288834974657

/-- `impl From<SecondsSinceUnixEpoch> for Snowflake`, tweetstore.rs lines
31-35: `(s * 1000 - TWEPOCH_MILLIS) << 22` over `u64`.  The shift is the
only step that can exceed 64 bits for inputs satisfying the claimed range
hypothesis, so the wrap-around is made explicit there. -/
def snowflakeOfSeconds (s : Nat) : Nat :=
  ((s * 1000 - TWEPOCH_MILLIS) * 2 ^ 22) % 2 ^ 64

/-- `impl From<Snowflake> for SecondsSinceUnixEpoch`, tweetstore.rs lines
37-41: `((id >> 22) + TWEPOCH_MILLIS) / 1000` over `u64`.  For any 64-bit
`id` the sum is far below `2 ^ 64`, so no wrap-around can occur. -/
def secondsOfSnowflake (id : Nat) : Nat :=
  (id / 2 ^ 22 + TWEPOCH_MILLIS) / 1000

/-- `TweetStore::interval_store`, tweetstore.rs lines 250-268, restricted to
the value it yields: the per-user store, or a fresh empty store for a user
not in the map (auto-vivification). -/
def interval_store : List (String × IntervalStoreM) → String → IntervalStoreM
  | [], _ => IntervalStoreM.new
  | (k, v) :: rest, u => if k = u then v else interval_store rest u

/-- `TweetStore::get_known_tweets`, tweetstore.rs lines 237-248. -/
def get_known_tweets (cache : List (String × IntervalStoreM)) (user : String)
    (i : Interval) : Except IntervalSet (List TVal) :=
  match (interval_store cache user).get i with
  | some tweets => Except.ok tweets
  | none => Except.error ((interval_store cache user).missing i)

/-- The upstream endpoints consumed by the fetch path, as oracles: the
primary per-user timeline (tweetstore.rs `fetch_usertimeline`, already
parsed and before the empty-list heuristic) and the secondary search
endpoint (`fetch_user_tweets_from_search`). -/
structure UpstreamEnv where
  searchEnabled : List String
  userTimeline : String → Interval → Except String (List TVal)
  search : String → Interval → Except String (List TVal)

/-- Ascending sort by time: `tweets.sort()` on the parsed upstream list. -/
def sortByTime (l : List TVal) : List TVal :=
  l.foldr valInsertOv []

/-- `TweetStore::fetch_usertimeline`, tweetstore.rs lines 129-176, with the
HTTP transport and JSON parsing replaced by the oracle: an upstream error
propagates; an empty list becomes `Ok(None)` (the 3200-tweet-limit
heuristic, lines 169-173); otherwise the sorted list is returned. -/
def fetch_usertimeline (env : UpstreamEnv) (user : String) (i : Interval) :
    Except String (Option (List TVal)) :=
  match env.userTimeline user i with
  | Except.error e => Except.error e
  | Except.ok tweets =>
    if (sortByTime tweets).length = 0 then Except.ok none
    else Except.ok (some (sortByTime tweets))

/-- `TweetStore::fetch_tweets`, tweetstore.rs lines 102-127, acting on the
requesting user's store.  `ctxName` is `context.user_screen_name`. -/
def fetch_tweets (env : UpstreamEnv) (ctxName user : String)
    (store : IntervalStoreM) (i : Interval) : Except String IntervalStoreM :=
  match fetch_usertimeline env user i with
  | Except.error e => Except.error e
  | Except.ok (some tweets) =>
    match store.insert i tweets with
    | (Except.ok _, s2) => Except.ok s2
    | (Except.error e, _) => Except.error e
  | Except.ok none =>
    if ctxName ∈ env.searchEnabled then
      match env.search user i with
      | Except.error e => Except.error e
      | Except.ok tweets =>
        match store.insert i (sortByTime tweets) with
        | (Except.ok _, s2) => Except.ok s2
        | (Except.error e, _) => Except.error e
    else
      Except.error "No tweets found, but cannot guarantee no tweets should have been found"

/-- `TweetStore::fetch_all_tweets`, tweetstore.rs lines 90-100: fetch every
missing sub-range in order, stopping at the first error (`?`). -/
def fetch_all_tweets (env : UpstreamEnv) (ctxName user : String)
    (store : IntervalStoreM) : List Interval → Except String IntervalStoreM
  | [] => Except.ok store
  | j :: rest =>
    match fetch_tweets env ctxName user store j with
    | Except.error e => Except.error e
    | Except.ok s2 => fetch_all_tweets env ctxName user s2 rest

/-- Outcome of a call to `TweetStore::tweets`: either a returned list, an
abort of the process via the `expect` on line 84 (a Rust panic), or fuel
exhaustion of the model (the Rust recursion is unbounded). -/
inductive TweetsOutcome
  | returned (tweets : List TVal)
  | panicked (msg : String)
  | fuelOut
deriving DecidableEq, Repr

/-- `TweetStore::tweets`, tweetstore.rs lines 74-88, for a single user's
store: on a miss it fetches all missing sub-ranges — aborting via
`.expect("Fetching tweets")` when that fails — and then re-queries itself.
The unbounded Rust recursion is given explicit fuel. -/
def tweetsRun (env : UpstreamEnv) (ctxName user : String) :
    Nat → IntervalStoreM → Interval → TweetsOutcome
  | 0, _, _ => TweetsOutcome.fuelOut
  | fuel + 1, store, i =>
    match store.get i with
    | some tweets => TweetsOutcome.returned tweets
    | none =>
      match fetch_all_tweets env ctxName user store (store.missing i).intervals with
      | Except.error e => TweetsOutcome.panicked ("Fetching tweets: " ++ e)
      | Except.ok s2 => tweetsRun env ctxName user fuel s2 i

/-- The strict lexicographic member order as a proposition. -/
def iltP (a b : Interval) : Prop :=
  a.lo < b.lo ∨ (a.lo = b.lo ∧ a.hi < b.hi)

/-- The shape every pair of distinct members of a reachable interval set
has: strictly separated in one of the two directions, or strictly nested
in one of the two directions. -/
def quadShape (a b : Interval) : Prop :=
  a.hi < b.lo ∨ b.hi < a.lo ∨ (a.lo < b.lo ∧ b.hi < a.hi) ∨ (b.lo < a.lo ∧ a.hi < b.hi)

/-- The lower merge bound accumulated by the `IntervalSet::insert` loop. -/
def lbFold (L : List Interval) (lb : Int) : Int :=
  L.foldl (fun a e => min a e.lo) lb

/-- The upper merge bound accumulated by the `IntervalSet::insert` loop. -/
def ubFold (L : List Interval) (ub : Int) : Int :=
  L.foldl (fun a e => max a e.hi) ub

/-! ### Helper lemmas -/

theorem btreeInsert_mem (x : Interval) :
    ∀ (l : List Interval) (m : Interval), m ∈ btreeInsert x l ↔ m = x ∨ m ∈ l := by
  intro l
  induction l with
  | nil => intro m; simp [btreeInsert]
  | cons y ys ih =>
    intro m
    simp only [btreeInsert]
    split
    · simp [List.mem_cons]
    · split
      · rename_i h2
        subst h2
        simp only [List.mem_cons]
        tauto
      · simp only [List.mem_cons, ih m]
        tauto

theorem ilt_iff (a b : Interval) : Interval.ilt a b = true ↔ iltP a b := by
  simp only [Interval.ilt, iltP, Bool.or_eq_true, Bool.and_eq_true, decide_eq_true_eq]

theorem iltP_trans {a b c : Interval} (h1 : iltP a b) (h2 : iltP b c) : iltP a c := by
  unfold iltP at *
  omega

theorem iltP_flip {a b : Interval} (h1 : ¬ iltP a b) (h2 : a ≠ b) : iltP b a := by
  unfold iltP at *
  by_contra h3
  apply h2
  have hlo : a.lo = b.lo := by omega
  have hhi : a.hi = b.hi := by omega
  cases a; cases b
  simp_all

theorem btreeRemove_mem (x : Interval) (l : List Interval) (m : Interval) :
    m ∈ btreeRemove x l ↔ m ∈ l ∧ m ≠ x := by
  simp [btreeRemove, List.mem_filter]

theorem btreeInsert_pairwise (x : Interval) :
    ∀ (l : List Interval), l.Pairwise iltP → (btreeInsert x l).Pairwise iltP := by
  intro l
  induction l with
  | nil => intro _; simp [btreeInsert]
  | cons y ys ih =>
    intro hp
    rcases List.pairwise_cons.mp hp with ⟨hy, hys⟩
    simp only [btreeInsert]
    split
    · rename_i hxy
      refine List.pairwise_cons.mpr ⟨?_, hp⟩
      intro z hz
      rcases List.mem_cons.mp hz with rfl | hz2
      · exact (ilt_iff x z).mp hxy
      · exact iltP_trans ((ilt_iff x y).mp hxy) (hy z hz2)
    · split
      · exact hp
      · rename_i hxy hne
        refine List.pairwise_cons.mpr ⟨?_, ih hys⟩
        intro z hz
        rcases (btreeInsert_mem x ys z).mp hz with heq | hz2
        · rw [heq]
          exact iltP_flip (fun hc => hxy ((ilt_iff x y).mpr hc)) hne
        · exact hy z hz2

theorem insertGo_pairwise (i : Interval) :
    ∀ (L : List Interval) (lb ub : Int) (cur : List Interval),
      cur.Pairwise iltP → (insertGo i L lb ub cur).Pairwise iltP := by
  intro L
  induction L with
  | nil => intro lb ub cur hp; exact btreeInsert_pairwise _ cur hp
  | cons e rest ih =>
    intro lb ub cur hp
    simp only [insertGo]
    split
    · exact hp
    · exact ih _ _ _ (hp.sublist (List.filter_sublist cur))

theorem reachset_pairwise (s : IntervalSet) (h : ReachSet s) :
    s.intervals.Pairwise iltP := by
  induction h with
  | new => exact List.Pairwise.nil
  | step s0 i h0 hwf ih => exact insertGo_pairwise i _ i.lo i.hi s0.intervals ih

theorem lbFold_le : ∀ (L : List Interval) (lb : Int), lbFold L lb ≤ lb := by
  intro L
  induction L with
  | nil => intro lb; exact le_refl _
  | cons e rest ih =>
    intro lb
    exact le_trans (ih (min lb e.lo)) (min_le_left _ _)

theorem lbFold_le_mem : ∀ (L : List Interval) (lb : Int) (e : Interval), e ∈ L →
    lbFold L lb ≤ e.lo := by
  intro L
  induction L with
  | nil => intro lb e he; cases he
  | cons hd rest ih =>
    intro lb e he
    rcases List.mem_cons.mp he with rfl | he2
    · exact le_trans (lbFold_le rest (min lb e.lo)) (min_le_right _ _)
    · exact ih (min lb hd.lo) e he2

theorem ubFold_ge : ∀ (L : List Interval) (ub : Int), ub ≤ ubFold L ub := by
  intro L
  induction L with
  | nil => intro ub; exact le_refl _
  | cons e rest ih =>
    intro ub
    exact le_trans (le_max_left _ _) (ih (max ub e.hi))

theorem ubFold_ge_mem : ∀ (L : List Interval) (ub : Int) (e : Interval), e ∈ L →
    e.hi ≤ ubFold L ub := by
  intro L
  induction L with
  | nil => intro ub e he; cases he
  | cons hd rest ih =>
    intro ub e he
    rcases List.mem_cons.mp he with rfl | he2
    · exact le_trans (le_max_right _ _) (ubFold_ge rest (max ub e.hi))
    · exact ih (max ub hd.hi) e he2

theorem storeInsertGo_snd_of_error (i : Interval) (w : List TVal) :
    ∀ (L : List Interval) (s : IntervalStoreM) (e : String),
      (storeInsertGo i w L s).1 = Except.error e → (storeInsertGo i w L s).2 = s := by
  intro L
  induction L with
  | nil => intro s e h; simp [storeInsertGo] at h
  | cons hd tl ih =>
    intro s e h
    by_cases hc : filteredTimes w (overlapOf hd i) = filteredTimes s.values (overlapOf hd i)
    · simp only [storeInsertGo, if_pos hc] at h ⊢
      exact ih s e h
    · simp only [storeInsertGo, if_neg hc]

theorem storeInsertGo_error_iff (i : Interval) (w : List TVal) :
    ∀ (L : List Interval) (s : IntervalStoreM),
      (storeInsertGo i w L s).1 = Except.error "Conflicting values" ↔
        ∃ e ∈ L,
          filteredTimes w (overlapOf e i) ≠ filteredTimes s.values (overlapOf e i) := by
  intro L
  induction L with
  | nil => intro s; simp [storeInsertGo]
  | cons hd tl ih =>
    intro s
    by_cases hc : filteredTimes w (overlapOf hd i) = filteredTimes s.values (overlapOf hd i)
    · simp only [storeInsertGo, if_pos hc]
      rw [ih s]
      constructor
      · rintro ⟨e, he, hne⟩; exact ⟨e, List.mem_cons_of_mem _ he, hne⟩
      · rintro ⟨e, he, hne⟩
        rcases List.mem_cons.mp he with rfl | he2
        · exact absurd hc hne
        · exact ⟨e, he2, hne⟩
    · simp only [storeInsertGo, if_neg hc]
      constructor
      · intro _; exact ⟨hd, List.mem_cons_self _ _, hc⟩
      · intro _; trivial

theorem overlap_reversed_contains (e i : Interval) (h : i.hi < i.lo) (t : Int) :
    (overlapOf e i).contains t = false := by
  simp only [overlapOf, Interval.contains, Bool.and_eq_false_iff, decide_eq_false_iff_not,
    not_le]
  by_cases h1 : max e.lo i.lo ≤ t
  · right; have := le_max_right e.lo i.lo; have := min_le_right e.hi i.hi; omega
  · left; omega

theorem filteredTimes_reversed (l : List TVal) (e i : Interval) (h : i.hi < i.lo) :
    filteredTimes l (overlapOf e i) = [] := by
  unfold filteredTimes
  rw [List.filter_eq_nil_iff.mpr, List.map_nil]
  intro w _
  simp [overlap_reversed_contains e i h w.time]

theorem storeInsertGo_reversed_ok (i : Interval) (w : List TVal) (h : i.hi < i.lo) :
    ∀ (L : List Interval) (s : IntervalStoreM),
      (storeInsertGo i w L s).1 = Except.ok () := by
  intro L
  induction L with
  | nil => intro s; rfl
  | cons hd tl ih =>
    intro s
    have hc : filteredTimes w (overlapOf hd i) = filteredTimes s.values (overlapOf hd i) := by
      rw [filteredTimes_reversed w hd i h, filteredTimes_reversed s.values hd i h]
    simp only [storeInsertGo, if_pos hc]
    exact ih s

theorem interval_store_absent (cache : List (String × IntervalStoreM)) (user : String)
    (h : ∀ p ∈ cache, p.1 ≠ user) : interval_store cache user = IntervalStoreM.new := by
  induction cache with
  | nil => rfl
  | cons hd tl ih =>
    have hne : hd.1 ≠ user := h hd (List.mem_cons_self _ _)
    obtain ⟨k, v⟩ := hd
    simp only [interval_store, if_neg hne]
    exact ih (fun p hp => h p (List.mem_cons_of_mem _ hp))

theorem missingGo_acc_mem (i : Interval) :
    ∀ (L : List Interval) (mlb : Int) (acc : List Interval) (m : Interval),
      m ∈ acc → m ∈ missingGo i L mlb acc := by
  intro L
  induction L with
  | nil =>
    intro mlb acc m hm
    simp only [missingGo]
    split
    · exact (btreeInsert_mem _ acc m).mpr (Or.inr hm)
    · exact hm
  | cons e rest ih =>
    intro mlb acc m hm
    simp only [missingGo]
    split
    · exact ih mlb acc m hm
    · split
      · exact ih e.hi acc m hm
      · split
        · exact ih e.hi _ m ((btreeInsert_mem _ acc m).mpr (Or.inr hm))
        · split
          · split
            · exact (btreeInsert_mem _ acc m).mpr (Or.inr hm)
            · exact hm
          · exact ih mlb acc m hm

theorem missingGo_complete (i : Interval) :
    ∀ (L : List Interval) (mlb : Int) (acc : List Interval) (t : Int),
      mlb < t → t ≤ i.hi →
      (∃ k ∈ missingGo i L mlb acc, k.contains t = true) ∨
        (∃ m ∈ L, m.contains t = true) := by
  intro L
  induction L with
  | nil =>
    intro mlb acc t h1 h2
    left
    have hlt : mlb < i.hi := lt_of_lt_of_le h1 h2
    refine ⟨⟨mlb, i.hi⟩, ?_, ?_⟩
    · simp only [missingGo, if_pos hlt]
      exact (btreeInsert_mem _ acc _).mpr (Or.inl rfl)
    · simp only [Interval.contains, Bool.and_eq_true, decide_eq_true_eq]
      omega
  | cons e rest ih =>
    intro mlb acc t h1 h2
    by_cases b1 : e.hi < i.lo
    · rcases ih mlb acc t h1 h2 with hk | ⟨m, hm, hc⟩
      · left; simpa only [missingGo, if_pos b1] using hk
      · exact Or.inr ⟨m, List.mem_cons_of_mem _ hm, hc⟩
    · by_cases b2 : e.lo ≤ mlb ∧ e.hi ≥ mlb
      · by_cases ht : t ≤ e.hi
        · refine Or.inr ⟨e, List.mem_cons_self _ _, ?_⟩
          simp only [Interval.contains, Bool.and_eq_true, decide_eq_true_eq]
          omega
        · rcases ih e.hi acc t (by omega) h2 with hk | ⟨m, hm, hc⟩
          · left
            simpa only [missingGo, if_neg b1, if_pos b2] using hk
          · exact Or.inr ⟨m, List.mem_cons_of_mem _ hm, hc⟩
      · by_cases b3 : e.lo ≥ mlb
        · by_cases ht : t ≤ min i.hi e.lo
          · left
            refine ⟨⟨mlb, min i.hi e.lo⟩, ?_, ?_⟩
            · simp only [missingGo, if_neg b1, if_neg b2, if_pos b3]
              exact missingGo_acc_mem i rest e.hi _ _
                ((btreeInsert_mem _ acc _).mpr (Or.inl rfl))
            · simp only [Interval.contains, Bool.and_eq_true, decide_eq_true_eq]
              omega
          · have he : e.lo < t := by
              rcases le_total i.hi e.lo with hmin | hmin
              · omega
              · simp only [min_eq_right hmin] at ht; omega
            by_cases ht2 : t ≤ e.hi
            · refine Or.inr ⟨e, List.mem_cons_self _ _, ?_⟩
              simp only [Interval.contains, Bool.and_eq_true, decide_eq_true_eq]
              omega
            · rcases ih e.hi _ t (by omega) h2 with hk | ⟨m, hm, hc⟩
              · left
                simpa only [missingGo, if_neg b1, if_neg b2, if_pos b3] using hk
              · exact Or.inr ⟨m, List.mem_cons_of_mem _ hm, hc⟩
        · by_cases b4 : e.lo > i.hi
          · omega
          · rcases ih mlb acc t h1 h2 with hk | ⟨m, hm, hc⟩
            · left
              simpa only [missingGo, if_neg b1, if_neg b2, if_neg b3, if_neg b4] using hk
            · exact Or.inr ⟨m, List.mem_cons_of_mem _ hm, hc⟩

theorem missingGo_complete_lo (i : Interval) (hwf : i.lo < i.hi) :
    ∀ (L : List Interval) (acc : List Interval),
      (∃ k ∈ missingGo i L i.lo acc, k.contains i.lo = true) ∨
        (∃ m ∈ L, m.contains i.lo = true) := by
  intro L
  induction L with
  | nil =>
    intro acc
    left
    refine ⟨⟨i.lo, i.hi⟩, ?_, ?_⟩
    · simp only [missingGo, if_pos hwf]
      exact (btreeInsert_mem _ acc _).mpr (Or.inl rfl)
    · simp only [Interval.contains, Bool.and_eq_true, decide_eq_true_eq]
      omega
  | cons e rest ih =>
    intro acc
    by_cases b1 : e.hi < i.lo
    · rcases ih acc with hk | ⟨m, hm, hc⟩
      · left; simpa only [missingGo, if_pos b1] using hk
      · exact Or.inr ⟨m, List.mem_cons_of_mem _ hm, hc⟩
    · by_cases b2 : e.lo ≤ i.lo ∧ e.hi ≥ i.lo
      · refine Or.inr ⟨e, List.mem_cons_self _ _, ?_⟩
        simp only [Interval.contains, Bool.and_eq_true, decide_eq_true_eq]
        omega
      · by_cases b3 : e.lo ≥ i.lo
        · left
          refine ⟨⟨i.lo, min i.hi e.lo⟩, ?_, ?_⟩
          · simp only [missingGo, if_neg b1, if_neg b2, if_pos b3]
            exact missingGo_acc_mem i rest e.hi _ _
              ((btreeInsert_mem _ acc _).mpr (Or.inl rfl))
          · simp only [Interval.contains, Bool.and_eq_true, decide_eq_true_eq]
            omega
        · by_cases b4 : e.lo > i.hi
          · omega
          · rcases ih acc with hk | ⟨m, hm, hc⟩
            · left
              simpa only [missingGo, if_neg b1, if_neg b2, if_neg b3, if_neg b4] using hk
            · exact Or.inr ⟨m, List.mem_cons_of_mem _ hm, hc⟩

theorem missingGo_sound (i : Interval) :
    ∀ (L : List Interval) (mlb : Int) (acc : List Interval),
      (∀ m ∈ L, m.lo ≤ m.hi) → i.lo ≤ mlb →
      ∀ k ∈ missingGo i L mlb acc, k ∈ acc ∨ (i.lo ≤ k.lo ∧ k.hi ≤ i.hi) := by
  intro L
  induction L with
  | nil =>
    intro mlb acc hwf hlo k hk
    simp only [missingGo] at hk
    split at hk
    · rcases (btreeInsert_mem _ acc k).mp hk with rfl | hin
      · exact Or.inr ⟨hlo, le_refl _⟩
      · exact Or.inl hin
    · exact Or.inl hk
  | cons e rest ih =>
    intro mlb acc hwf hlo k hk
    have hwfe : e.lo ≤ e.hi := hwf e (List.mem_cons_self _ _)
    have hwfr : ∀ m ∈ rest, m.lo ≤ m.hi := fun m hm => hwf m (List.mem_cons_of_mem _ hm)
    simp only [missingGo] at hk
    split at hk
    · exact ih mlb acc hwfr hlo k hk
    · split at hk
      · rename_i b2
        exact ih e.hi acc hwfr (by omega) k hk
      · split at hk
        · rename_i b2 b3
          rcases ih e.hi _ hwfr (by omega) k hk with hin | hb
          · rcases (btreeInsert_mem _ acc k).mp hin with rfl | hin2
            · exact Or.inr ⟨hlo, min_le_left _ _⟩
            · exact Or.inl hin2
          · exact Or.inr hb
        · split at hk
          · split at hk
            · rcases (btreeInsert_mem _ acc k).mp hk with rfl | hin
              · exact Or.inr ⟨hlo, le_refl _⟩
              · exact Or.inl hin
            · exact Or.inl hk
          · exact ih mlb acc hwfr hlo k hk

theorem missingGo_sep (i : Interval) :
    ∀ (L : List Interval) (mlb : Int) (acc : List Interval),
      (∀ m ∈ L, m.lo ≤ m.hi) → (∀ k ∈ acc, k.hi ≤ mlb) →
      (∀ k1 ∈ acc, ∀ k2 ∈ acc, k1 ≠ k2 → k1.hi ≤ k2.lo ∨ k2.hi ≤ k1.lo) →
      ∀ k1 ∈ missingGo i L mlb acc, ∀ k2 ∈ missingGo i L mlb acc, k1 ≠ k2 →
        k1.hi ≤ k2.lo ∨ k2.hi ≤ k1.lo := by
  intro L
  induction L with
  | nil =>
    intro mlb acc hwf hub hsep k1 hk1 k2 hk2 hne
    simp only [missingGo] at hk1 hk2
    by_cases hlt : mlb < i.hi
    · rw [if_pos hlt] at hk1 hk2
      rcases (btreeInsert_mem _ acc k1).mp hk1 with rfl | h1
      · rcases (btreeInsert_mem _ acc k2).mp hk2 with rfl | h2
        · exact absurd rfl hne
        · exact Or.inr (hub k2 h2)
      · rcases (btreeInsert_mem _ acc k2).mp hk2 with rfl | h2
        · exact Or.inl (hub k1 h1)
        · exact hsep k1 h1 k2 h2 hne
    · rw [if_neg hlt] at hk1 hk2
      exact hsep k1 hk1 k2 hk2 hne
  | cons e rest ih =>
    intro mlb acc hwf hub hsep k1 hk1 k2 hk2 hne
    have hwfe : e.lo ≤ e.hi := hwf e (List.mem_cons_self _ _)
    have hwfr : ∀ m ∈ rest, m.lo ≤ m.hi := fun m hm => hwf m (List.mem_cons_of_mem _ hm)
    by_cases b1 : e.hi < i.lo
    · simp only [missingGo, if_pos b1] at hk1 hk2
      exact ih mlb acc hwfr hub hsep k1 hk1 k2 hk2 hne
    · by_cases b2 : e.lo ≤ mlb ∧ e.hi ≥ mlb
      · simp only [missingGo, if_neg b1, if_pos b2] at hk1 hk2
        exact ih e.hi acc hwfr (fun k hk => le_trans (hub k hk) b2.2) hsep k1 hk1 k2 hk2 hne
      · by_cases b3 : e.lo ≥ mlb
        · simp only [missingGo, if_neg b1, if_neg b2, if_pos b3] at hk1 hk2
          refine ih e.hi _ hwfr ?_ ?_ k1 hk1 k2 hk2 hne
          · intro k hk
            rcases (btreeInsert_mem _ acc k).mp hk with rfl | hin
            · exact le_trans (min_le_right _ _) hwfe
            · exact le_trans (hub k hin) (le_trans b3 hwfe)
          · intro a ha b hb hab
            rcases (btreeInsert_mem _ acc a).mp ha with rfl | hina
            · rcases (btreeInsert_mem _ acc b).mp hb with rfl | hinb
              · exact absurd rfl hab
              · exact Or.inr (hub b hinb)
            · rcases (btreeInsert_mem _ acc b).mp hb with rfl | hinb
              · exact Or.inl (hub a hina)
              · exact hsep a hina b hinb hab
        · by_cases b4 : e.lo > i.hi
          · simp only [missingGo, if_neg b1, if_neg b2, if_neg b3, if_pos b4] at hk1 hk2
            by_cases hlt : mlb < i.hi
            · rw [if_pos hlt] at hk1 hk2
              rcases (btreeInsert_mem _ acc k1).mp hk1 with rfl | h1
              · rcases (btreeInsert_mem _ acc k2).mp hk2 with rfl | h2
                · exact absurd rfl hne
                · exact Or.inr (hub k2 h2)
              · rcases (btreeInsert_mem _ acc k2).mp hk2 with rfl | h2
                · exact Or.inl (hub k1 h1)
                · exact hsep k1 h1 k2 h2 hne
            · rw [if_neg hlt] at hk1 hk2
              exact hsep k1 hk1 k2 hk2 hne
          · simp only [missingGo, if_neg b1, if_neg b2, if_neg b3, if_neg b4] at hk1 hk2
            exact ih mlb acc hwfr hub hsep k1 hk1 k2 hk2 hne

theorem contains_iff (s : Interval) (t : Int) :
    s.contains t = true ↔ s.lo ≤ t ∧ t ≤ s.hi := by
  simp [Interval.contains]

theorem intersects_iff (s i : Interval) :
    s.intersects i = true ↔
      (s.lo ≤ i.lo ∧ i.lo ≤ s.hi) ∨ (s.lo ≤ i.hi ∧ i.hi ≤ s.hi) := by
  simp [Interval.intersects, Interval.contains, Bool.or_eq_true]

theorem contains_interval_iff (s i : Interval) :
    s.contains_interval i = true ↔
      s.lo ≤ i.lo ∧ i.lo ≤ s.hi ∧ s.lo ≤ i.hi ∧ i.hi ≤ s.hi := by
  simp only [Interval.contains_interval, Interval.contains, Bool.and_eq_true,
    decide_eq_true_eq]
  tauto

theorem quadShape_symm {a b : Interval} (h : quadShape a b) : quadShape b a := by
  unfold quadShape at *
  omega

theorem insertGo_mem_nc (i : Interval) :
    ∀ (L : List Interval) (lb ub : Int) (cur : List Interval),
      (∀ e ∈ L, e.contains_interval i = false) →
      ∀ m, (m ∈ insertGo i L lb ub cur ↔
        m = ⟨lbFold L lb, ubFold L ub⟩ ∨ (m ∈ cur ∧ m ∉ L)) := by
  intro L
  induction L with
  | nil =>
    intro lb ub cur _ m
    simp only [insertGo, lbFold, ubFold, List.foldl_nil, List.not_mem_nil, not_false_iff,
      and_true]
    exact btreeInsert_mem _ cur m
  | cons e rest ih =>
    intro lb ub cur hnc m
    have hce : e.contains_interval i = false := hnc e (List.mem_cons_self _ _)
    have hncr : ∀ a ∈ rest, a.contains_interval i = false :=
      fun a ha => hnc a (List.mem_cons_of_mem _ ha)
    simp only [insertGo, hce, Bool.false_eq_true, if_false]
    rw [ih (min lb e.lo) (max ub e.hi) (btreeRemove e cur) hncr m]
    have hfold :
        (⟨lbFold rest (min lb e.lo), ubFold rest (max ub e.hi)⟩ : Interval) =
          ⟨lbFold (e :: rest) lb, ubFold (e :: rest) ub⟩ := by
      simp [lbFold, ubFold, List.foldl_cons]
    rw [hfold, btreeRemove_mem]
    constructor
    · rintro (rfl | ⟨⟨hin, hne⟩, hnr⟩)
      · exact Or.inl rfl
      · refine Or.inr ⟨hin, ?_⟩
        intro hc
        rcases List.mem_cons.mp hc with rfl | hc2
        · exact hne rfl
        · exact hnr hc2
    · rintro (rfl | ⟨hin, hnc2⟩)
      · exact Or.inl rfl
      · refine Or.inr ⟨⟨hin, ?_⟩, ?_⟩
        · intro hc; exact hnc2 (hc ▸ List.mem_cons_self _ _)
        · intro hc; exact hnc2 (List.mem_cons_of_mem _ hc)

theorem hull_points (i : Interval) (hwf : i.lo ≤ i.hi) :
    ∀ (L : List Interval) (lb ub : Int),
      (∀ e ∈ L, e.intersects i = true ∧ e.lo ≤ e.hi) →
      lb ≤ i.lo → i.hi ≤ ub →
      ∀ t : Int, lbFold L lb ≤ t → t ≤ ubFold L ub →
        (lb ≤ t ∧ t ≤ ub) ∨ ∃ e ∈ L, e.contains t = true := by
  intro L
  induction L with
  | nil =>
    intro lb ub _ _ _ t h1 h2
    exact Or.inl ⟨h1, h2⟩
  | cons e rest ih =>
    intro lb ub hL hlb hub t h1 h2
    have he := hL e (List.mem_cons_self _ _)
    have hei := (intersects_iff e i).mp he.1
    have hrest : ∀ a ∈ rest, a.intersects i = true ∧ a.lo ≤ a.hi :=
      fun a ha => hL a (List.mem_cons_of_mem _ ha)
    have h1r : lbFold rest (min lb e.lo) ≤ t := by
      simpa [lbFold, List.foldl_cons] using h1
    have h2r : t ≤ ubFold rest (max ub e.hi) := by
      simpa [ubFold, List.foldl_cons] using h2
    rcases ih (min lb e.lo) (max ub e.hi) hrest
        (le_trans (min_le_left _ _) hlb) (le_trans hub (le_max_left _ _)) t h1r h2r with
      hbox | ⟨a, ha, hac⟩
    · by_cases hold : lb ≤ t ∧ t ≤ ub
      · exact Or.inl hold
      · refine Or.inr ⟨e, List.mem_cons_self _ _, ?_⟩
        rw [contains_iff]
        rcases hbox with ⟨hb1, hb2⟩
        simp only [le_min_iff, min_le_iff, max_le_iff, le_max_iff] at hb1 hb2
        omega
    · exact Or.inr ⟨a, List.mem_cons_of_mem _ ha, hac⟩

theorem hull_vs_survivor (i : Interval) (S : List Interval)
    (hwfS : ∀ m ∈ S, m.lo ≤ m.hi) (hwf : i.lo ≤ i.hi)
    (hq : ∀ e1 ∈ S, ∀ e2 ∈ S, e1 ≠ e2 → quadShape e1 e2)
    (m : Interval) (hm : m ∈ S) (hmni : m.intersects i = false) :
    quadShape
      ⟨lbFold (S.filter (fun e => e.intersects i)) i.lo,
       ubFold (S.filter (fun e => e.intersects i)) i.hi⟩ m := by
  have hmwf : m.lo ≤ m.hi := hwfS m hm
  have hmni2 : ¬ ((m.lo ≤ i.lo ∧ i.lo ≤ m.hi) ∨ (m.lo ≤ i.hi ∧ i.hi ≤ m.hi)) := by
    intro hc
    rw [← intersects_iff] at hc
    rw [hmni] at hc
    cases hc
  set il := S.filter (fun e => e.intersects i) with hil
  have hilP : ∀ e ∈ il, e.intersects i = true ∧ e.lo ≤ e.hi := by
    intro e he
    rcases List.mem_filter.mp he with ⟨heS, heint⟩
    exact ⟨heint, hwfS e heS⟩
  have hLB : lbFold il i.lo ≤ i.lo := lbFold_le il i.lo
  have hUB : i.hi ≤ ubFold il i.hi := ubFold_ge il i.hi
  by_cases hsep : m.hi < lbFold il i.lo ∨ ubFold il i.hi < m.lo
  · rcases hsep with hs1 | hs2
    · exact Or.inr (Or.inl hs1)
    · exact Or.inl hs2
  · push_neg at hsep
    set p : Int := max (lbFold il i.lo) m.lo with hp
    have hpl : lbFold il i.lo ≤ p := le_max_left _ _
    have hpu : p ≤ ubFold il i.hi := max_le (by omega) hsep.2
    have hpm : m.lo ≤ p ∧ p ≤ m.hi := ⟨le_max_right _ _, max_le hsep.1 hmwf⟩
    rcases hull_points i hwf il i.lo i.hi hilP (le_refl _) (le_refl _) p hpl hpu with
      hbox | ⟨e, he, hec⟩
    · refine Or.inr (Or.inr (Or.inl ?_))
      show lbFold il i.lo < m.lo ∧ m.hi < ubFold il i.hi
      omega
    · rcases List.mem_filter.mp he with ⟨heS, heint⟩
      have hewf : e.lo ≤ e.hi := hwfS e heS
      have heint2 := (intersects_iff e i).mp heint
      have hecp := (contains_iff e p).mp hec
      have hmne : m ≠ e := by
        intro hc
        rw [hc] at hmni
        rw [hmni] at heint
        cases heint
      have hqme := hq m hm e heS hmne
      have hLBe : lbFold il i.lo ≤ e.lo := lbFold_le_mem il i.lo e he
      have hUBe : e.hi ≤ ubFold il i.hi := ubFold_ge_mem il i.hi e he
      unfold quadShape at hqme
      show ubFold il i.hi < m.lo ∨ m.hi < lbFold il i.lo ∨
        (lbFold il i.lo < m.lo ∧ m.hi < ubFold il i.hi) ∨
        (m.lo < lbFold il i.lo ∧ ubFold il i.hi < m.hi)
      omega

theorem filter_head_contains (i : Interval) (S : List Interval)
    (hsort : S.Pairwise iltP) (hwf : i.lo ≤ i.hi)
    (hq : ∀ e1 ∈ S, ∀ e2 ∈ S, e1 ≠ e2 → quadShape e1 e2)
    (h : Interval) (tl : List Interval)
    (hfeq : S.filter (fun e => e.intersects i) = h :: tl)
    (hex : ∃ e ∈ h :: tl, e.contains_interval i = true) :
    h.contains_interval i = true := by
  obtain ⟨e, he, hec⟩ := hex
  have hhmem : h ∈ S.filter (fun e => e.intersects i) :=
    hfeq ▸ List.mem_cons_self _ _
  rcases List.mem_filter.mp hhmem with ⟨hhS, hhint⟩
  rcases List.mem_cons.mp he with rfl | hetl
  · exact hec
  · have hemem : e ∈ S.filter (fun a => a.intersects i) :=
      hfeq ▸ List.mem_cons_of_mem _ hetl
    have heS := (List.mem_filter.mp hemem).1
    have hilp : (h :: tl).Pairwise iltP := hfeq ▸ hsort.sublist (List.filter_sublist S)
    have hlt : iltP h e := (List.pairwise_cons.mp hilp).1 e hetl
    have hne : h ≠ e := by
      intro hcc
      rw [hcc] at hlt
      unfold iltP at hlt
      omega
    have hqhe := hq h hhS e heS hne
    have h1 := (contains_interval_iff e i).mp hec
    have h2 := (intersects_iff h i).mp hhint
    rw [contains_interval_iff]
    unfold quadShape at hqhe
    unfold iltP at hlt
    omega

theorem insert_shape (S : IntervalSet) (i : Interval)
    (hsort : S.intervals.Pairwise iltP) (hwfS : ∀ m ∈ S.intervals, m.lo ≤ m.hi)
    (hq : ∀ e1 ∈ S.intervals, ∀ e2 ∈ S.intervals, e1 ≠ e2 → quadShape e1 e2)
    (hwf : i.lo ≤ i.hi) :
    ∀ e1 ∈ (S.insert i).intervals, ∀ e2 ∈ (S.insert i).intervals, e1 ≠ e2 →
      quadShape e1 e2 := by
  by_cases hex :
    ∃ e ∈ S.intervals.filter (fun e => e.intersects i), e.contains_interval i = true
  · cases hcase : S.intervals.filter (fun e => e.intersects i) with
    | nil =>
      rw [hcase] at hex
      obtain ⟨e, he, _⟩ := hex
      cases he
    | cons h tl =>
      rw [hcase] at hex
      have hhc := filter_head_contains i S.intervals hsort hwf hq h tl hcase hex
      have hres : (S.insert i).intervals = S.intervals := by
        show insertGo i (S.intervals.filter (fun e => e.intersects i)) i.lo i.hi
            S.intervals = S.intervals
        rw [hcase]
        simp [insertGo, hhc]
      rw [hres]
      exact hq
  · push_neg at hex
    have hnc : ∀ e ∈ S.intervals.filter (fun e => e.intersects i),
        e.contains_interval i = false :=
      fun e he => Bool.eq_false_iff.mpr (hex e he)
    have hchar := insertGo_mem_nc i (S.intervals.filter (fun e => e.intersects i)) i.lo
      i.hi S.intervals hnc
    have hsurv : ∀ m : Interval,
        m ∈ S.intervals → m ∉ S.intervals.filter (fun e => e.intersects i) →
        m.intersects i = false := by
      intro m hmS hmf
      by_cases hc : m.intersects i = true
      · exact absurd (List.mem_filter.mpr ⟨hmS, hc⟩) hmf
      · exact Bool.eq_false_iff.mpr hc
    intro m1 hm1 m2 hm2 hne
    have hm1c := (hchar m1).mp hm1
    have hm2c := (hchar m2).mp hm2
    rcases hm1c with rfl | ⟨hm1S, hm1f⟩
    · rcases hm2c with rfl | ⟨hm2S, hm2f⟩
      · exact absurd rfl hne
      · exact hull_vs_survivor i S.intervals hwfS hwf hq m2 hm2S (hsurv m2 hm2S hm2f)
    · rcases hm2c with rfl | ⟨hm2S, hm2f⟩
      · exact quadShape_symm
          (hull_vs_survivor i S.intervals hwfS hwf hq m1 hm1S (hsurv m1 hm1S hm1f))
      · exact hq m1 hm1S m2 hm2S hne

theorem insertGo_wf (i : Interval) :
    ∀ (L : List Interval) (lb ub : Int) (cur : List Interval),
      lb ≤ ub → (∀ m ∈ cur, m.lo ≤ m.hi) →
      ∀ m ∈ insertGo i L lb ub cur, m.lo ≤ m.hi := by
  intro L
  induction L with
  | nil =>
    intro lb ub cur hle hcur m hm
    rcases (btreeInsert_mem _ cur m).mp hm with rfl | hin
    · exact hle
    · exact hcur m hin
  | cons e rest ih =>
    intro lb ub cur hle hcur m hm
    simp only [insertGo] at hm
    split at hm
    · exact hcur m hm
    · refine ih (min lb e.lo) (max ub e.hi) _ ?_ ?_ m hm
      · exact le_trans (min_le_left _ _) (le_trans hle (le_max_left _ _))
      · intro a ha
        exact hcur a (List.mem_filter.mp ha).1

theorem reachset_wf (s : IntervalSet) (h : ReachSet s) :
    ∀ m ∈ s.intervals, m.lo ≤ m.hi := by
  induction h with
  | new => intro m hm; cases hm
  | step s0 i h0 hwf ih =>
    intro m hm
    exact insertGo_wf i (s0.intersecting i).intervals i.lo i.hi s0.intervals hwf ih m hm

theorem reachset_shape (s : IntervalSet) (h : ReachSet s) :
    ∀ e1 ∈ s.intervals, ∀ e2 ∈ s.intervals, e1 ≠ e2 → quadShape e1 e2 := by
  induction h with
  | new => intro e1 he1; cases he1
  | step s0 i h0 hwf ih =>
    exact insert_shape s0 i (reachset_pairwise s0 h0) (reachset_wf s0 h0) ih hwf

theorem covers_eq_true (s : IntervalSet) (t : Int) :
    s.covers t = true ↔ ∃ m ∈ s.intervals, m.contains t = true :=
  List.any_eq_true

theorem insert_covers_mono (S : IntervalSet) (i : Interval)
    (hsort : S.intervals.Pairwise iltP)
    (hq : ∀ e1 ∈ S.intervals, ∀ e2 ∈ S.intervals, e1 ≠ e2 → quadShape e1 e2)
    (hwf : i.lo ≤ i.hi) :
    ∀ t : Int, S.covers t = true → (S.insert i).covers t = true := by
  intro t hcov
  rcases (covers_eq_true S t).mp hcov with ⟨m, hmS, hmc⟩
  by_cases hex :
    ∃ e ∈ S.intervals.filter (fun e => e.intersects i), e.contains_interval i = true
  · cases hcase : S.intervals.filter (fun e => e.intersects i) with
    | nil =>
      rw [hcase] at hex
      obtain ⟨e, he, _⟩ := hex
      cases he
    | cons h tl =>
      rw [hcase] at hex
      have hhc := filter_head_contains i S.intervals hsort hwf hq h tl hcase hex
      have hres : (S.insert i).intervals = S.intervals := by
        show insertGo i (S.intervals.filter (fun e => e.intersects i)) i.lo i.hi
            S.intervals = S.intervals
        rw [hcase]
        simp [insertGo, hhc]
      rw [covers_eq_true, hres]
      exact ⟨m, hmS, hmc⟩
  · push_neg at hex
    have hnc : ∀ e ∈ S.intervals.filter (fun e => e.intersects i),
        e.contains_interval i = false :=
      fun e he => Bool.eq_false_iff.mpr (hex e he)
    have hchar := insertGo_mem_nc i (S.intervals.filter (fun e => e.intersects i)) i.lo
      i.hi S.intervals hnc
    rw [covers_eq_true]
    by_cases hmf : m ∈ S.intervals.filter (fun e => e.intersects i)
    · refine ⟨⟨lbFold (S.intervals.filter (fun e => e.intersects i)) i.lo,
        ubFold (S.intervals.filter (fun e => e.intersects i)) i.hi⟩,
        (hchar _).mpr (Or.inl rfl), ?_⟩
      rw [contains_iff] at hmc ⊢
      have h1 := lbFold_le_mem (S.intervals.filter (fun e => e.intersects i)) i.lo m hmf
      have h2 := ubFold_ge_mem (S.intervals.filter (fun e => e.intersects i)) i.hi m hmf
      show lbFold (S.intervals.filter (fun e => e.intersects i)) i.lo ≤ t ∧
        t ≤ ubFold (S.intervals.filter (fun e => e.intersects i)) i.hi
      constructor <;> omega
    · exact ⟨m, (hchar m).mpr (Or.inr ⟨hmS, hmf⟩), hmc⟩

theorem insert_covers_self (S : IntervalSet) (i : Interval)
    (hsort : S.intervals.Pairwise iltP)
    (hq : ∀ e1 ∈ S.intervals, ∀ e2 ∈ S.intervals, e1 ≠ e2 → quadShape e1 e2)
    (hwf : i.lo ≤ i.hi) :
    ∀ t : Int, i.contains t = true → (S.insert i).covers t = true := by
  intro t hct
  rw [contains_iff] at hct
  by_cases hex :
    ∃ e ∈ S.intervals.filter (fun e => e.intersects i), e.contains_interval i = true
  · cases hcase : S.intervals.filter (fun e => e.intersects i) with
    | nil =>
      rw [hcase] at hex
      obtain ⟨e, he, _⟩ := hex
      cases he
    | cons h tl =>
      rw [hcase] at hex
      have hhc := filter_head_contains i S.intervals hsort hwf hq h tl hcase hex
      have hhS : h ∈ S.intervals := by
        have : h ∈ S.intervals.filter (fun e => e.intersects i) :=
          hcase ▸ List.mem_cons_self _ _
        exact (List.mem_filter.mp this).1
      have hres : (S.insert i).intervals = S.intervals := by
        show insertGo i (S.intervals.filter (fun e => e.intersects i)) i.lo i.hi
            S.intervals = S.intervals
        rw [hcase]
        simp [insertGo, hhc]
      rw [covers_eq_true, hres]
      refine ⟨h, hhS, ?_⟩
      rw [contains_interval_iff] at hhc
      rw [contains_iff]
      constructor <;> omega
  · push_neg at hex
    have hnc : ∀ e ∈ S.intervals.filter (fun e => e.intersects i),
        e.contains_interval i = false :=
      fun e he => Bool.eq_false_iff.mpr (hex e he)
    have hchar := insertGo_mem_nc i (S.intervals.filter (fun e => e.intersects i)) i.lo
      i.hi S.intervals hnc
    rw [covers_eq_true]
    refine ⟨⟨lbFold (S.intervals.filter (fun e => e.intersects i)) i.lo,
      ubFold (S.intervals.filter (fun e => e.intersects i)) i.hi⟩,
      (hchar _).mpr (Or.inl rfl), ?_⟩
    have h1 := lbFold_le (S.intervals.filter (fun e => e.intersects i)) i.lo
    have h2 := ubFold_ge (S.intervals.filter (fun e => e.intersects i)) i.hi
    rw [contains_iff]
    show lbFold (S.intervals.filter (fun e => e.intersects i)) i.lo ≤ t ∧
      t ≤ ubFold (S.intervals.filter (fun e => e.intersects i)) i.hi
    constructor <;> omega

theorem valInsert_mem (x : TVal) :
    ∀ (l : List TVal) (v : TVal), v ∈ valInsert x l → v = x ∨ v ∈ l := by
  intro l
  induction l with
  | nil =>
    intro v hv
    simp only [valInsert, List.mem_singleton] at hv
    exact Or.inl hv
  | cons y ys ih =>
    intro v hv
    simp only [valInsert] at hv
    split at hv
    · rcases List.mem_cons.mp hv with rfl | hv2
      · exact Or.inl rfl
      · exact Or.inr hv2
    · split at hv
      · exact Or.inr hv
      · rcases List.mem_cons.mp hv with rfl | hv2
        · exact Or.inr (List.mem_cons_self _ _)
        · rcases ih v hv2 with h | h
          · exact Or.inl h
          · exact Or.inr (List.mem_cons_of_mem _ h)

theorem valInsertOv_mem (x : TVal) :
    ∀ (l : List TVal) (v : TVal), v ∈ valInsertOv x l → v = x ∨ v ∈ l := by
  intro l
  induction l with
  | nil =>
    intro v hv
    simp only [valInsertOv, List.mem_singleton] at hv
    exact Or.inl hv
  | cons y ys ih =>
    intro v hv
    simp only [valInsertOv] at hv
    split at hv
    · rcases List.mem_cons.mp hv with rfl | hv2
      · exact Or.inl rfl
      · exact Or.inr hv2
    · split at hv
      · rcases List.mem_cons.mp hv with rfl | hv2
        · exact Or.inl rfl
        · exact Or.inr (List.mem_cons_of_mem _ hv2)
      · rcases List.mem_cons.mp hv with rfl | hv2
        · exact Or.inr (List.mem_cons_self _ _)
        · rcases ih v hv2 with h | h
          · exact Or.inl h
          · exact Or.inr (List.mem_cons_of_mem _ h)

theorem valAppend_mem :
    ∀ (incoming stored : List TVal) (v : TVal),
      v ∈ valAppend stored incoming → v ∈ stored ∨ v ∈ incoming := by
  intro incoming
  induction incoming with
  | nil => intro stored v hv; exact Or.inl hv
  | cons x xs ih =>
    intro stored v hv
    rcases ih (valInsertOv x stored) v hv with h | h
    · rcases valInsertOv_mem x stored v h with rfl | h2
      · exact Or.inr (List.mem_cons_self _ _)
      · exact Or.inl h2
    · exact Or.inr (List.mem_cons_of_mem _ h)

theorem foldl_valInsert_mem :
    ∀ (vs acc : List TVal) (v : TVal),
      v ∈ vs.foldl (fun a x => valInsert x a) acc → v ∈ acc ∨ v ∈ vs := by
  intro vs
  induction vs with
  | nil => intro acc v hv; exact Or.inl hv
  | cons x xs ih =>
    intro acc v hv
    rcases ih (valInsert x acc) v hv with h | h
    · rcases valInsert_mem x acc v h with rfl | h2
      · exact Or.inr (List.mem_cons_self _ _)
      · exact Or.inl h2
    · exact Or.inr (List.mem_cons_of_mem _ h)

theorem toWrappedSet_mem (vs : List TVal) (v : TVal) (hv : v ∈ toWrappedSet vs) :
    v ∈ vs := by
  rcases foldl_valInsert_mem vs [] v hv with h | h
  · cases h
  · exact h

theorem store_insert_snd_cases (s : IntervalStoreM) (i : Interval) (vs : List TVal) :
    (s.insert i vs).2 = s ∨
      (s.insert i vs).2 =
        ⟨s.intervals.insert i, valAppend s.values (toWrappedSet vs)⟩ := by
  unfold IntervalStoreM.insert
  generalize (s.intervals.intersecting i).intervals = L
  induction L with
  | nil => exact Or.inr rfl
  | cons e rest ih =>
    simp only [storeInsertGo]
    split
    · exact ih
    · exact Or.inl rfl

theorem reachstore_reachset (st : IntervalStoreM) (h : ReachStore st) :
    ReachSet st.intervals := by
  induction h with
  | new => exact ReachSet.new
  | step s i vs h0 hwf hvs ih =>
    rcases store_insert_snd_cases s i vs with heq | heq
    · rw [heq]; exact ih
    · rw [heq]; exact ReachSet.step _ _ ih hwf

/-! ### Claim theorems -/

/-- C5, counterexample: (1) for the degenerate query `[25,25]` on the
reachable set `{[10,20]}` the point `25` is neither covered nor reported
missing, so `missing(I) ∪ (covered∩I) ≠ I`; (2) on the reachable set
`{[10,10]}`, `missing([5,15]) = {[5,10],[10,15]}` and the two distinct
members share the point `10`, so they are not pairwise disjoint. -/
theorem missing_union_counterexample :
    ((25 : Int) ≤ 25 ∧
     (IntervalSet.new.insert ⟨10, 20⟩).missing ⟨25, 25⟩ = ⟨[]⟩ ∧
     (IntervalSet.new.insert ⟨10, 20⟩).covers 25 = false ∧
     (Interval.mk 25 25).contains 25 = true) ∧
    ((⟨5, 10⟩ : Interval) ∈ ((IntervalSet.new.insert ⟨10, 10⟩).missing ⟨5, 15⟩).intervals ∧
     (⟨10, 15⟩ : Interval) ∈ ((IntervalSet.new.insert ⟨10, 10⟩).missing ⟨5, 15⟩).intervals ∧
     (⟨5, 10⟩ : Interval) ≠ (⟨10, 15⟩ : Interval) ∧
     (Interval.mk 5 10).contains 10 = true ∧ (Interval.mk 10 15).contains 10 = true) := by
  decide

/-- C5 amended: for a reachable set and a query with `lo < hi` strictly,
the points of `missing(I)` together with the covered points of `I` are
exactly the points of `I`, and two distinct members of `missing(I)` can
share at most one endpoint; the spec's multi-gap example holds as stated. -/
theorem missing_union_and_separation (s : IntervalSet) (hs : ReachSet s) (i : Interval)
    (hlt : i.lo < i.hi) :
    (∀ t : Int, ((s.missing i).covers t || (s.covers t && i.contains t)) = i.contains t) ∧
    (∀ k1 ∈ (s.missing i).intervals, ∀ k2 ∈ (s.missing i).intervals, k1 ≠ k2 →
      k1.hi ≤ k2.lo ∨ k2.hi ≤ k1.lo) ∧
    ((IntervalSet.new.insert ⟨5, 10⟩).insert ⟨20, 30⟩).missing ⟨1, 40⟩ =
      ⟨[⟨1, 5⟩, ⟨10, 20⟩, ⟨30, 40⟩]⟩ := by
  have hwf := reachset_wf s hs
  refine ⟨?_, ?_, by decide⟩
  · intro t
    by_cases hct : i.contains t = true
    · rw [hct]
      have hb : i.lo ≤ t ∧ t ≤ i.hi := by
        simpa only [Interval.contains, Bool.and_eq_true, decide_eq_true_eq] using hct
      rw [Bool.or_eq_true]
      by_cases hts : i.lo < t
      · rcases missingGo_complete i s.intervals i.lo [] t hts hb.2 with ⟨k, hk, hkc⟩ | hm
        · left
          exact (covers_eq_true _ _).mpr ⟨k, hk, hkc⟩
        · right
          rw [Bool.and_eq_true, covers_eq_true]
          exact ⟨hm, rfl⟩
      · have hteq : t = i.lo := by omega
        subst hteq
        rcases missingGo_complete_lo i hlt s.intervals [] with ⟨k, hk, hkc⟩ | hm
        · left
          exact (covers_eq_true _ _).mpr ⟨k, hk, hkc⟩
        · right
          rw [Bool.and_eq_true, covers_eq_true]
          exact ⟨hm, rfl⟩
    · have hcf : i.contains t = false := Bool.eq_false_iff.mpr hct
      rw [hcf, Bool.or_eq_false_iff, Bool.and_eq_false_iff]
      refine ⟨?_, Or.inr rfl⟩
      rw [Bool.eq_false_iff]
      intro habs
      rcases (covers_eq_true _ t).mp habs with ⟨k, hk, hkc⟩
      rcases missingGo_sound i s.intervals i.lo [] hwf (le_refl _) k hk with hin | hbnd
      · cases hin
      · have : k.lo ≤ t ∧ t ≤ k.hi := by
          simpa only [Interval.contains, Bool.and_eq_true, decide_eq_true_eq] using hkc
        apply hct
        simp only [Interval.contains, Bool.and_eq_true, decide_eq_true_eq]
        omega
  · exact missingGo_sep i s.intervals i.lo [] hwf (fun k hk => absurd hk (List.not_mem_nil _))
      (fun k1 hk1 => absurd hk1 (List.not_mem_nil _))

/-- Witness for C5 amended at the spec's own multi-gap scenario:
inserts `[5,10]`, `[20,30]`, query `[1,40]`. -/
theorem missing_union_and_separation_witness :
    ((IntervalSet.new.insert ⟨5, 10⟩).insert ⟨20, 30⟩).missing ⟨1, 40⟩ =
      ⟨[⟨1, 5⟩, ⟨10, 20⟩, ⟨30, 40⟩]⟩ :=
  (missing_union_and_separation ((IntervalSet.new.insert ⟨5, 10⟩).insert ⟨20, 30⟩)
    (ReachSet.step _ _ (ReachSet.step _ _ ReachSet.new (by norm_num)) (by norm_num))
    ⟨1, 40⟩ (by norm_num)).2.2

/-- C1, counterexample: inserting `[50,60]` then `[0,100]` into the empty
set yields the members `[0,100]` and `[50,60]`, which overlap: ordered by
lower endpoint, `[0,100]` comes first but its upper endpoint `100` is not
strictly below `50`.  The asymmetric `intersects` misses an existing member
strictly inside the inserted interval. -/
theorem intervalset_pairwise_counterexample :
    (⟨0, 100⟩ : Interval) ∈ ((IntervalSet.new.insert ⟨50, 60⟩).insert ⟨0, 100⟩).intervals ∧
    (⟨50, 60⟩ : Interval) ∈ ((IntervalSet.new.insert ⟨50, 60⟩).insert ⟨0, 100⟩).intervals ∧
    (⟨0, 100⟩ : Interval) ≠ (⟨50, 60⟩ : Interval) ∧
    (0 : Int) < 50 ∧ ¬ ((100 : Int) < 50) ∧
    (50 : Int) ≤ 60 ∧ (0 : Int) ≤ 100 := by
  decide

/-- C1 amended: after any sequence of inserts of well-formed intervals
starting from the empty set, any two distinct members are either strictly
separated or strictly nested (one strictly inside the other on both
endpoints); the claimed strict separation alone does not hold. -/
theorem reachable_pairwise_shape (s : IntervalSet) (hs : ReachSet s) :
    ∀ e1 ∈ s.intervals, ∀ e2 ∈ s.intervals, e1 ≠ e2 →
      e1.hi < e2.lo ∨ e2.hi < e1.lo ∨ (e1.lo < e2.lo ∧ e2.hi < e1.hi) ∨
        (e2.lo < e1.lo ∧ e1.hi < e2.hi) :=
  fun e1 he1 e2 he2 hne => reachset_shape s hs e1 he1 e2 he2 hne

/-- Witness for C1 amended at the counterexample set
`{[0,100],[50,60]}`: the two members are strictly nested. -/
theorem reachable_pairwise_shape_witness :
    (Interval.mk 0 100).hi < (Interval.mk 50 60).lo ∨
    (Interval.mk 50 60).hi < (Interval.mk 0 100).lo ∨
    ((Interval.mk 0 100).lo < (Interval.mk 50 60).lo ∧
      (Interval.mk 50 60).hi < (Interval.mk 0 100).hi) ∨
    ((Interval.mk 50 60).lo < (Interval.mk 0 100).lo ∧
      (Interval.mk 0 100).hi < (Interval.mk 50 60).hi) :=
  reachable_pairwise_shape ((IntervalSet.new.insert ⟨50, 60⟩).insert ⟨0, 100⟩)
    (ReachSet.step _ _ (ReachSet.step _ _ ReachSet.new (by norm_num)) (by norm_num))
    ⟨0, 100⟩ (by decide) ⟨50, 60⟩ (by decide) (by decide)

/-- C6 amended: in any store reachable by inserts of well-formed intervals
whose values all lie inside the inserted interval, every stored value's
time is inside some known interval. -/
theorem stored_values_covered (st : IntervalStoreM) (h : ReachStore st) :
    ∀ v ∈ st.values, st.intervals.covers v.time = true := by
  induction h with
  | new => intro v hv; cases hv
  | step s i vs h0 hwf hvs ih =>
    rcases store_insert_snd_cases s i vs with heq | heq
    · rw [heq]; exact ih
    · rw [heq]
      intro v hv
      have hreach := reachstore_reachset s h0
      have hsort := reachset_pairwise s.intervals hreach
      have hq := reachset_shape s.intervals hreach
      rcases valAppend_mem (toWrappedSet vs) s.values v hv with hv2 | hv2
      · exact insert_covers_mono s.intervals i hsort hq hwf v.time (ih v hv2)
      · exact insert_covers_self s.intervals i hsort hq hwf v.time
          (hvs v (toWrappedSet_mem vs v hv2))

/-- Witness for C6 amended at a concrete reachable store:
`insert([10,20], {time 15})`. -/
theorem stored_values_covered_witness :
    ((IntervalStoreM.new.insert ⟨10, 20⟩ [⟨15, 2⟩]).2).intervals.covers 15 = true :=
  stored_values_covered _
    (ReachStore.step _ _ _ ReachStore.new (by norm_num) (by decide)) ⟨15, 2⟩ (by decide)

/-- C3, code bug: the set `{[10,20],[30,40]}` (reachable by two inserts)
contains `[12,15]`, yet `missing([12,15])` is not empty — the walk emits
the junk interval `(20,15)` because the `e.lo > i.hi` stop test is checked
only after the `e.lo ≥ cursor` branch.  The spec's normative edge case
says the result must be empty. -/
theorem missing_contained_code_bug :
    ((IntervalSet.new.insert ⟨10, 20⟩).insert ⟨30, 40⟩).contains ⟨12, 15⟩ = true ∧
    ((IntervalSet.new.insert ⟨10, 20⟩).insert ⟨30, 40⟩).missing ⟨12, 15⟩ =
      ⟨[⟨20, 15⟩]⟩ ∧
    (⟨[⟨20, 15⟩]⟩ : IntervalSet) ≠ IntervalSet.new := by
  decide

/-- C4: an erroring `IntervalStore::insert` leaves the store exactly as it
was — the conflict loop runs before any mutation, and the early return
hands back the untouched state. -/
theorem store_insert_error_unchanged (s : IntervalStoreM) (i : Interval) (vs : List TVal)
    (e : String) (h : (s.insert i vs).1 = Except.error e) : (s.insert i vs).2 = s :=
  storeInsertGo_snd_of_error i (toWrappedSet vs) (s.intervals.intersecting i).intervals s e h

/-- Witness for C4 at a concrete conflicting insert (the repo's own
`reinsert_conflict_whole_interval` scenario). -/
theorem store_insert_error_unchanged_witness :
    (((IntervalStoreM.new.insert ⟨10, 20⟩ [⟨10, 0⟩, ⟨11, 0⟩, ⟨15, 0⟩]).2.insert
        ⟨10, 20⟩ [⟨14, 0⟩]).1 = Except.error "Conflicting values") ∧
    ((IntervalStoreM.new.insert ⟨10, 20⟩ [⟨10, 0⟩, ⟨11, 0⟩, ⟨15, 0⟩]).2.insert
        ⟨10, 20⟩ [⟨14, 0⟩]).2 =
      (IntervalStoreM.new.insert ⟨10, 20⟩ [⟨10, 0⟩, ⟨11, 0⟩, ⟨15, 0⟩]).2 :=
  ⟨rfl,
   store_insert_error_unchanged (IntervalStoreM.new.insert ⟨10, 20⟩
       [⟨10, 0⟩, ⟨11, 0⟩, ⟨15, 0⟩]).2 ⟨10, 20⟩ [⟨14, 0⟩] "Conflicting values" rfl⟩

/-- C6, counterexample: an insert whose value times lie outside the
inserted interval succeeds and stores a value not covered by any known
interval: `insert([10,20], {time 99})` from the empty store. -/
theorem stored_value_uncovered_counterexample :
    (IntervalStoreM.new.insert ⟨10, 20⟩ [⟨99, 0⟩]).1 = Except.ok () ∧
    (⟨99, 0⟩ : TVal) ∈ (IntervalStoreM.new.insert ⟨10, 20⟩ [⟨99, 0⟩]).2.values ∧
    (IntervalStoreM.new.insert ⟨10, 20⟩ [⟨99, 0⟩]).2.intervals.covers 99 = false :=
  ⟨rfl, by decide, by decide⟩

/-- C7, counterexample: for the degenerate query `[5,5]` on an unknown user
the known lookup reports no missing interval at all instead of `{[5,5]}` —
the final emission of `missing` requires `cursor < hi` strictly. -/
theorem unknown_user_counterexample :
    get_known_tweets [] "u" ⟨5, 5⟩ = Except.error ⟨[]⟩ ∧
    (⟨[]⟩ : IntervalSet) ≠ ⟨[⟨5, 5⟩]⟩ := by
  exact ⟨rfl, by decide⟩

/-- C7 amended: for a user absent from the cache and a query interval with
`lo < hi` (strictly), the known lookup returns exactly the whole range as
missing. -/
theorem unknown_user_whole_range_missing (cache : List (String × IntervalStoreM))
    (user : String) (h : ∀ p ∈ cache, p.1 ≠ user) (i : Interval) (hlt : i.lo < i.hi) :
    get_known_tweets cache user i = Except.error ⟨[i]⟩ := by
  obtain ⟨lo, hi⟩ := i
  unfold get_known_tweets
  rw [interval_store_absent cache user h]
  simp only [IntervalStoreM.get, IntervalStoreM.has, IntervalStoreM.new, IntervalSet.new,
    IntervalSet.contains, List.any_nil, Bool.false_eq_true, if_false,
    IntervalStoreM.missing, IntervalSet.missing, missingGo]
  rw [if_pos hlt]
  rfl

/-- Witness for C7 amended at a concrete absent user and interval. -/
theorem unknown_user_whole_range_missing_witness :
    get_known_tweets [] "someone" ⟨10, 20⟩ = Except.error ⟨[⟨10, 20⟩]⟩ :=
  unknown_user_whole_range_missing [] "someone" (by intro p hp; cases hp) ⟨10, 20⟩
    (by norm_num)

/-- C8: the seconds → snowflake → seconds round trip is the identity on the
representable range. -/
theorem codec_roundtrip (s : Nat) (h1 : TWEPOCH_MILLIS ≤ s * 1000)
    (h2 : s * 1000 - TWEPOCH_MILLIS < 2 ^ 42) :
    secondsOfSnowflake (snowflakeOfSeconds s) = s := by
  unfold secondsOfSnowflake snowflakeOfSeconds TWEPOCH_MILLIS at *
  have hlt : (s * 1000 - 1288834974657) * 2 ^ 22 < 2 ^ 64 := by
    norm_num at h2 ⊢
    omega
  rw [Nat.mod_eq_of_lt hlt, Nat.mul_div_cancel _ (by norm_num : 0 < 2 ^ 22),
    Nat.sub_add_cancel h1, Nat.mul_div_cancel _ (by norm_num : 0 < 1000)]

/-- Witness for C8 at `s = 1500000000` (a second count inside the
representable range). -/
theorem codec_roundtrip_witness :
    TWEPOCH_MILLIS ≤ 1500000000 * 1000 ∧
    1500000000 * 1000 - TWEPOCH_MILLIS < 2 ^ 42 ∧
    secondsOfSnowflake (snowflakeOfSeconds 1500000000) = 1500000000 :=
  ⟨by norm_num [TWEPOCH_MILLIS], by norm_num [TWEPOCH_MILLIS],
   codec_roundtrip 1500000000 (by norm_num [TWEPOCH_MILLIS])
     (by norm_num [TWEPOCH_MILLIS])⟩

/-- C10: a reversed interval (`hi < lo`) is an empty point set under
`contains`, and passing it to `IntervalStore::insert` never produces a
conflict error — every computed overlap is itself reversed and so the
compared value lists are both empty. -/
theorem reversed_interval_harmless (i : Interval) (h : i.hi < i.lo) :
    (∀ t : Int, i.contains t = false) ∧
    (∀ (s : IntervalStoreM) (vs : List TVal), (s.insert i vs).1 = Except.ok ()) := by
  constructor
  · intro t
    simp only [Interval.contains, Bool.and_eq_false_iff, decide_eq_false_iff_not, not_le]
    omega
  · intro s vs
    exact storeInsertGo_reversed_ok i (toWrappedSet vs) h _ s

/-- C2, counterexample: with known coverage `{[50,60]}` holding the value
at time `55`, the insert of `[0,100]` with no values succeeds, although
`[50,60]` overlaps `[0,100]` (the overlap `[50,60]` is non-empty) and the
stored and new value collections disagree there.  The conflict loop only
inspects members that contain an endpoint of the inserted interval, and
`[50,60]` contains neither `0` nor `100`. -/
theorem conflict_iff_counterexample :
    ((IntervalStoreM.new.insert ⟨50, 60⟩ [⟨55, 0⟩]).2.insert ⟨0, 100⟩ []).1 =
      Except.ok () ∧
    (⟨50, 60⟩ : Interval) ∈
      (IntervalStoreM.new.insert ⟨50, 60⟩ [⟨55, 0⟩]).2.intervals.intervals ∧
    max (50 : Int) 0 ≤ min (60 : Int) 100 ∧
    filteredTimes (toWrappedSet []) (overlapOf ⟨50, 60⟩ ⟨0, 100⟩) ≠
      filteredTimes (IntervalStoreM.new.insert ⟨50, 60⟩ [⟨55, 0⟩]).2.values
        (overlapOf ⟨50, 60⟩ ⟨0, 100⟩) :=
  ⟨rfl, by decide, by decide, by decide⟩

/-- C2 amended: `IntervalStore::insert` fails with the conflict error if
and only if some known interval `e` *that contains an endpoint of* the
inserted interval (the code's `intersects` test) disagrees with the new
values on the overlap `[max(e.lo,i.lo), min(e.hi,i.hi)]`, comparing the
time sequences of the filtered collections. -/
theorem conflict_iff_endpoint_overlap (s : IntervalStoreM) (i : Interval) (vs : List TVal) :
    (s.insert i vs).1 = Except.error "Conflicting values" ↔
      ∃ e ∈ s.intervals.intervals, e.intersects i = true ∧
        filteredTimes (toWrappedSet vs) (overlapOf e i) ≠
          filteredTimes s.values (overlapOf e i) := by
  unfold IntervalStoreM.insert
  rw [storeInsertGo_error_iff]
  constructor
  · rintro ⟨e, he, hne⟩
    rcases List.mem_filter.mp he with ⟨hmem, hint⟩
    exact ⟨e, hmem, hint, hne⟩
  · rintro ⟨e, hmem, hint, hne⟩
    exact ⟨e, List.mem_filter.mpr ⟨hmem, hint⟩, hne⟩

/-- C9, code bug: `TweetStore::tweets` does not surface a failing fetch as
an error value; the `.expect("Fetching tweets")` aborts.  Evaluated on a
cache miss with (1) an erroring upstream and (2) an upstream returning an
empty list for a caller that is not search-enabled, the orchestrator model
ends in the panic outcome both times, with the upstream error text
propagated unchanged into the panic message. -/
theorem tweets_panics_on_fetch_error :
    tweetsRun ⟨[], fun _ _ => Except.error "upstream failure",
        fun _ _ => Except.error "unused"⟩ "caller" "someuser" 5 IntervalStoreM.new
        ⟨10, 20⟩ =
      TweetsOutcome.panicked "Fetching tweets: upstream failure" ∧
    tweetsRun ⟨[], fun _ _ => Except.ok [], fun _ _ => Except.ok []⟩ "caller"
        "someuser" 5 IntervalStoreM.new ⟨10, 20⟩ =
      TweetsOutcome.panicked
        "Fetching tweets: No tweets found, but cannot guarantee no tweets should have been found" :=
  ⟨rfl, rfl⟩

/-- Witness for C10 at the concrete reversed interval `(20,10)`. -/
theorem reversed_interval_harmless_witness :
    (Interval.mk 20 10).contains 15 = false ∧
    (IntervalStoreM.new.insert ⟨20, 10⟩ [⟨12, 0⟩]).1 = Except.ok () :=
  ⟨(reversed_interval_harmless ⟨20, 10⟩ (by norm_num)).1 15,
   (reversed_interval_harmless ⟨20, 10⟩ (by norm_num)).2 IntervalStoreM.new [⟨12, 0⟩]⟩

end Twimetravel
